import Mathlib

/-!
# Prefix search: `Trie` and `HashTable` (src/main.cpp)

A shallow embedding of the two containers of `src/main.cpp` and of their
`insert` / `search` member functions, followed by the properties proved about
them.

Modelling conventions

* `std::string` is a list of characters (`CString`).  Only equality of
  characters is used by the trie; `std::string::compare` also uses their order.
* `std::unordered_map<char, std::unique_ptr<TrieNode>>` is an association list.
  The trie never iterates over a child map, so the order of the bindings is
  not observable by `insert` or `search`.
* `std::unordered_set<std::string>` is a list without repetitions; the scan of
  `HashTable::search` visits it front to back.
* A member function that can leave its normal control flow (an exception of a
  checked access, or the dereference of a null pointer) returns an `Option`:
  `none` stands for "did not return normally".
-/

/-- A `std::string`: a finite sequence of `char`. -/
abbrev CString := List Char

/-- The `struct TrieNode` of src/main.cpp, lines 13-18: the child map and the
end-of-word flag. -/
inductive TrieNode where
  | mk (children : List (Char × TrieNode)) (is_end_of_word : Bool)

namespace TrieNode

/-- Field `children`. -/
def children : TrieNode → List (Char × TrieNode)
  | mk cs _ => cs

/-- Field `is_end_of_word`. -/
def is_end_of_word : TrieNode → Bool
  | mk _ e => e

/-- The node built by `std::make_unique<TrieNode>()`: no child, flag `false`. -/
def make_unique : TrieNode := mk [] false

/-- The binding of key `ch` in a child map, if there is one. -/
def lookup : List (Char × TrieNode) → Char → Option TrieNode
  | [], _ => none
  | (k, v) :: rest, ch => if k = ch then some v else lookup rest ch

/-- The child map after the binding of `ch` is set to `v`: the binding is
replaced where the key is present and added where it is not. -/
def update : List (Char × TrieNode) → Char → TrieNode → List (Char × TrieNode)
  | [], ch, v => [(ch, v)]
  | (k, w) :: rest, ch, v => if k = ch then (k, v) :: rest else (k, w) :: update rest ch v

/-- The call `node->children.count(ch)`: 1 when the key is present, else 0. -/
def count (node : TrieNode) (ch : Char) : Nat :=
  if (lookup node.children ch).isSome then 1 else 0

/-- The call `node->children.at(ch).get()`: `none` when the checked access
throws `std::out_of_range`. -/
def childAt (node : TrieNode) (ch : Char) : Option TrieNode :=
  lookup node.children ch

/-- The call `node->children[ch].get()`: where the key is absent `operator[]`
value-initialises the mapped `unique_ptr`, so the pointer obtained is null
(`none`). -/
def childIndex (node : TrieNode) (ch : Char) : Option TrieNode :=
  lookup node.children ch

/-- The assignment `node->children[ch] = v`. -/
def setChild (node : TrieNode) (ch : Char) (v : TrieNode) : TrieNode :=
  mk (update node.children ch v) node.is_end_of_word

/-- The assignment `node->is_end_of_word = true`. -/
def markEnd (node : TrieNode) : TrieNode :=
  mk node.children true

mutual
/-- Number of nodes of the subtree rooted at a node, that node included. -/
def size : TrieNode → Nat
  | mk cs _ => 1 + sizeList cs
/-- Number of nodes of the subtrees bound in a child map. -/
def sizeList : List (Char × TrieNode) → Nat
  | [] => 0
  | (_, c) :: rest => size c + sizeList rest
end

/-- The node at the end of the path that spells `s` downwards from `node`, if
that path exists. -/
def descend : CString → TrieNode → Option TrieNode
  | [], node => some node
  | ch :: rest, node =>
    match lookup node.children ch with
    | none => none
    | some child => descend rest child

end TrieNode

/-- The `class Trie` of src/main.cpp: it owns the root node. -/
structure Trie where
  root : TrieNode

namespace Trie

/-- The constructor `Trie()`: `root(std::make_unique<TrieNode>())`. -/
def new : Trie := ⟨TrieNode.make_unique⟩

/-- The loop of `Trie::insert` (lines 32-39) with the cursor at `node` and the
characters still to consume; the result is the subtree of `node` after the
loop and the final assignment.  `none`: a null pointer was dereferenced. -/
def insertFrom : CString → TrieNode → Option TrieNode
  | [], node => some node.markEnd
  | ch :: rest, node =>
    let node1 :=
      if node.count ch = 0 then node.setChild ch TrieNode.make_unique else node
    match node1.childIndex ch with
    | none => none
    | some child =>
      match insertFrom rest child with
      | none => none
      | some child1 => some (node1.setChild ch child1)

/-- The member function `Trie::insert(word)`, lines 27-40. -/
def insert (t : Trie) (word : CString) : Option Trie :=
  match insertFrom word t.root with
  | none => none
  | some r => some ⟨r⟩

/-- The loop of `Trie::search` (lines 48-55) with the cursor at `node`.
`none`: `children.at(ch)` threw. -/
def searchFrom : CString → TrieNode → Option Bool
  | [], _ => some true
  | ch :: rest, node =>
    if node.count ch = 0 then some false
    else
      match node.childAt ch with
      | none => none
      | some child => searchFrom rest child

/-- The member function `Trie::search(pfx)`, lines 43-56. -/
def search (t : Trie) (pfx : CString) : Option Bool :=
  searchFrom pfx t.root

/-- The words of a list inserted one after the other, first to last. -/
def insertAll : Trie → List CString → Option Trie
  | t, [] => some t
  | t, word :: rest =>
    match t.insert word with
    | none => none
    | some t1 => insertAll t1 rest

/-- Total number of nodes of the trie, the root included. -/
def nodeCount (t : Trie) : Nat := t.root.size

end Trie

/-- The call `traits_type::compare(a, b, n)` used by `std::string::compare`:
the sign of the first difference among the first `n` characters, 0 if none. -/
def traitsCompare : Nat → CString → CString → Int
  | n + 1, a :: as, b :: bs =>
    if a < b then -1 else if b < a then 1 else traitsCompare n as bs
  | _, _, _ => 0

/-- The call `word.compare(pos, len, str)` of `std::string`: `none` when
`pos > word.size()` (`std::out_of_range`); otherwise the sign of the comparison
of the substring `[pos, pos + min(len, size - pos))` of `word` with `str`. -/
def stringCompare (word : CString) (pos len : Nat) (str : CString) : Option Int :=
  if word.length < pos then none
  else
    let sub := (word.drop pos).take len
    let r := traitsCompare (min sub.length str.length) sub str
    if r ≠ 0 then some r
    else if sub.length < str.length then some (-1)
    else if sub.length = str.length then some 0
    else some 1

/-- The `class HashTable` of src/main.cpp: the stored set of words. -/
structure HashTable where
  words : List CString

namespace HashTable

/-- A default-constructed `HashTable`: the empty set. -/
def new : HashTable := ⟨[]⟩

/-- The member function `HashTable::insert(word)`, lines 67-69:
`words.insert(word)` leaves the set as it is when the word is present. -/
def insert (h : HashTable) (word : CString) : HashTable :=
  if word ∈ h.words then h else ⟨h.words ++ [word]⟩

/-- The range-for loop of `HashTable::search` (lines 76-82) over the entries
still to visit. -/
def scan (pfx : CString) : List CString → Option Bool
  | [] => some false
  | word :: rest =>
    if word.length < pfx.length then scan pfx rest
    else
      match stringCompare word 0 pfx.length pfx with
      | none => none
      | some r => if r = 0 then some true else scan pfx rest

/-- The member function `HashTable::search(pfx)`, lines 72-83. -/
def search (h : HashTable) (pfx : CString) : Option Bool :=
  if pfx ∈ h.words then some true else scan pfx h.words

/-- The words of a list inserted one after the other, first to last. -/
def insertAll : HashTable → List CString → HashTable
  | h, [] => h
  | h, word :: rest => insertAll (h.insert word) rest

end HashTable

/-- The subtree of `node` after the loop of `Trie::insert` has run on `word`
(the value carried by `Trie.insertFrom`, which always returns one). -/
def Trie.inserted (word : CString) (node : TrieNode) : TrieNode :=
  (Trie.insertFrom word node).getD node

/-- The end-of-word flag of the node at the end of the path spelling `s`;
`false` where the path does not exist. -/
def TrieNode.flagAt (s : CString) (node : TrieNode) : Bool :=
  match TrieNode.descend s node with
  | some m => m.is_end_of_word
  | none => false


/-- The subtree of `node` after the words of a list went through the loop of
`Trie::insert`, first to last. -/
def Trie.insertedAll (ws : List CString) (node : TrieNode) : TrieNode :=
  ws.foldl (fun n w => Trie.inserted w n) node

/-- Number of leading characters of `word` whose path exists below `node`. -/
def TrieNode.matched : CString → TrieNode → Nat
  | [], _ => 0
  | ch :: rest, node =>
    match TrieNode.lookup node.children ch with
    | none => 0
    | some child => matched rest child + 1

/-- The trie obtained from the freshly constructed one by inserting the words
of a list (the value carried by `Trie.insertAll Trie.new`). -/
def Trie.built (ws : List CString) : Trie :=
  ⟨Trie.insertedAll ws Trie.new.root⟩

/-- The first loop of `test` (lines 95-97): `container.insert(word)` for each
word, first to last.  `insert` is the member function of the container type,
given as a function from the state before the call to the state after it. -/
def insertLoop {T : Type} (insert : T → CString → Option T) : T → List CString → Option T
  | container, [] => some container
  | container, word :: rest =>
    match insert container word with
    | none => none
    | some c1 => insertLoop insert c1 rest

/-- The second loop of `test` (lines 104-106): `container.search(pfx)` for each
entry, first to last.  `search` is a `const` member function, so it is given as
a function of the state that returns no new state.  The values returned by the
calls, which the source discards, are collected in order. -/
def searchLoop {T : Type} (search : T → CString → Option Bool) (container : T) :
    List CString → Option (List Bool)
  | [] => some []
  | pfx :: rest =>
    match search container pfx with
    | none => none
    | some b =>
      match searchLoop search container rest with
      | none => none
      | some bs => some (b :: bs)

/-- The function template `test` (lines 91-110) for a container type `T` with
member functions `insert` and `search`; the clock readings and the console
output are left out.  The result is the state of the container after the call
and the values returned by the calls of `search`. -/
def test {T : Type} (insert : T → CString → Option T) (search : T → CString → Option Bool)
    (container : T) (words pfxs : List CString) : Option (T × List Bool) :=
  match insertLoop insert container words with
  | none => none
  | some c1 =>
    match searchLoop search c1 pfxs with
    | none => none
    | some bs => some (c1, bs)

/-- The member function `HashTable::insert` in the form `test` takes it: it
always returns normally. -/
def HashTable.insertOk (h : HashTable) (word : CString) : Option HashTable :=
  some (h.insert word)

/-- The loop of `HashTable::search` with the test of line 78
(`if (word.size() < prefix.size()) continue;`) removed. -/
def HashTable.scanNoSkip (pfx : CString) : List CString → Option Bool
  | [] => some false
  | word :: rest =>
    match stringCompare word 0 pfx.length pfx with
    | none => none
    | some r => if r = 0 then some true else scanNoSkip pfx rest

/-- The function `HashTable::search` with the membership test of line 74
(`words.find(prefix)`) removed: the linear scan alone. -/
def HashTable.searchScanOnly (h : HashTable) (pfx : CString) : Option Bool :=
  HashTable.scan pfx h.words

/-- The function `HashTable::search` with the test of line 78 removed and the
membership test of line 74 kept. -/
def HashTable.searchNoSkip (h : HashTable) (pfx : CString) : Option Bool :=
  if pfx ∈ h.words then some true else HashTable.scanNoSkip pfx h.words

/-- The non-empty strings that are a prefix of at least one word of the list,
as a finite set (each string counted once). -/
def nonemptyPrefixes (ws : List CString) : Finset CString :=
  ((ws.flatMap List.inits).filter (fun s => decide (s ≠ []))).toFinset

/-- Two nodes hold the same tree: the same end-of-word flag, child maps with
the same keys, and under each key nodes that hold the same tree.  Child maps
are compared as maps, key by key; the order of the bindings in the association
lists is not compared. -/
inductive TrieNode.SameTree : TrieNode → TrieNode → Prop
  | intro (a b : TrieNode)
      (hflag : a.is_end_of_word = b.is_end_of_word)
      (hkeys : ∀ ch, TrieNode.lookup a.children ch = none ↔
        TrieNode.lookup b.children ch = none)
      (hkids : ∀ ch x y, TrieNode.lookup a.children ch = some x →
        TrieNode.lookup b.children ch = some y → SameTree x y) :
      SameTree a b

/-- No child map in the tree below `node` binds a key twice, as in a
`std::unordered_map`. -/
def TrieNode.UniqueKeys (node : TrieNode) : Prop :=
  ∀ s m, TrieNode.descend s node = some m → (m.children.map Prod.fst).Nodup

namespace TrieNode

theorem lookup_update_self (cs : List (Char × TrieNode)) (ch : Char) (v : TrieNode) :
    lookup (update cs ch v) ch = some v := by
  induction cs with
  | nil => simp [update, lookup]
  | cons hd tl ih =>
    obtain ⟨k, w⟩ := hd
    by_cases h : k = ch
    · simp [update, lookup, h]
    · simp [update, lookup, h, ih]

theorem lookup_update_ne (cs : List (Char × TrieNode)) (ch c : Char) (v : TrieNode)
    (hne : c ≠ ch) : lookup (update cs ch v) c = lookup cs c := by
  induction cs with
  | nil =>
    have : ¬ ch = c := fun h => hne h.symm
    simp [update, lookup, this]
  | cons hd tl ih =>
    obtain ⟨k, w⟩ := hd
    by_cases h : k = ch
    · have : ¬ ch = c := fun h => hne h.symm
      simp [update, lookup, h, this]
    · by_cases h2 : k = c
      · subst h2
        simp [update, lookup, hne]
      · simp [update, lookup, h, h2, ih]

theorem update_update (cs : List (Char × TrieNode)) (ch : Char) (a b : TrieNode) :
    update (update cs ch a) ch b = update cs ch b := by
  induction cs with
  | nil => simp [update]
  | cons hd tl ih =>
    obtain ⟨k, w⟩ := hd
    by_cases h : k = ch
    · simp [update, h]
    · simp [update, h, ih]

theorem sizeList_update (cs : List (Char × TrieNode)) (ch : Char) (v : TrieNode) :
    sizeList (update cs ch v) + (match lookup cs ch with | some o => size o | none => 0)
      = sizeList cs + size v := by
  induction cs with
  | nil => simp [update, lookup, sizeList]
  | cons hd tl ih =>
    obtain ⟨k, w⟩ := hd
    by_cases h : k = ch
    · simp [update, lookup, h, sizeList]; omega
    · simp [update, lookup, h, sizeList]; omega

end TrieNode

namespace Trie

open TrieNode

theorem insertFrom_cons (ch : Char) (rest : CString) (node : TrieNode) :
    insertFrom (ch :: rest) node =
      (insertFrom rest ((lookup node.children ch).getD make_unique)).map
        (fun child1 => node.setChild ch child1) := by
  obtain ⟨cs, e⟩ := node
  cases hl : lookup cs ch with
  | none =>
    have h1 : (if (TrieNode.mk cs e).count ch = 0
        then (TrieNode.mk cs e).setChild ch make_unique else TrieNode.mk cs e)
        = TrieNode.mk (update cs ch make_unique) e := by
      simp [count, setChild, children, is_end_of_word, hl]
    simp only [insertFrom]
    simp only [h1]
    simp only [childIndex, children, lookup_update_self, hl, Option.getD_none,
      setChild, is_end_of_word, update_update]
    cases insertFrom rest make_unique <;> rfl
  | some child =>
    have h1 : (if (TrieNode.mk cs e).count ch = 0
        then (TrieNode.mk cs e).setChild ch make_unique else TrieNode.mk cs e)
        = TrieNode.mk cs e := by
      simp [count, children, hl]
    simp only [insertFrom]
    simp only [h1]
    simp only [childIndex, children, hl, Option.getD_some]
    cases insertFrom rest child <;> rfl

theorem insertFrom_isSome (word : CString) (node : TrieNode) :
    (insertFrom word node).isSome = true := by
  induction word generalizing node with
  | nil => simp [insertFrom]
  | cons ch rest ih =>
    rw [insertFrom_cons]
    simp [ih]

theorem insertFrom_eq (word : CString) (node : TrieNode) :
    insertFrom word node = some (inserted word node) := by
  have h := insertFrom_isSome word node
  unfold inserted
  cases hi : insertFrom word node with
  | none => simp [hi] at h
  | some r => simp

theorem inserted_nil (node : TrieNode) : inserted [] node = node.markEnd := by
  simp [inserted, insertFrom]

theorem inserted_cons (ch : Char) (rest : CString) (node : TrieNode) :
    inserted (ch :: rest) node =
      node.setChild ch (inserted rest ((lookup node.children ch).getD make_unique)) := by
  have h := insertFrom_eq (ch :: rest) node
  rw [insertFrom_cons, insertFrom_eq rest] at h
  simpa using h.symm

end Trie

namespace TrieNode

theorem descend_cons (c : Char) (s : CString) (node : TrieNode) :
    descend (c :: s) node = (lookup node.children c).bind (descend s) := by
  cases h : lookup node.children c <;> simp [descend, h]

theorem descend_make_unique_cons (c : Char) (s : CString) :
    descend (c :: s) make_unique = none := by
  simp [descend_cons, make_unique, children, lookup]

theorem descend_make_unique_isSome (s : CString) :
    (descend s make_unique).isSome = true ↔ s = [] := by
  cases s with
  | nil => simp [descend]
  | cons c s => simp [descend_make_unique_cons]

theorem flagAt_make_unique (s : CString) : flagAt s make_unique = false := by
  cases s with
  | nil => simp [flagAt, descend, make_unique, is_end_of_word]
  | cons c s => simp [flagAt, descend_make_unique_cons]

theorem descend_markEnd_cons (c : Char) (s : CString) (node : TrieNode) :
    descend (c :: s) node.markEnd = descend (c :: s) node := by
  simp [descend_cons, markEnd, children]

theorem descend_setChild_self (ch : Char) (s : CString) (node v : TrieNode) :
    descend (ch :: s) (node.setChild ch v) = descend s v := by
  simp [descend_cons, setChild, children, lookup_update_self]

theorem descend_setChild_ne (c ch : Char) (s : CString) (node v : TrieNode) (hne : c ≠ ch) :
    descend (c :: s) (node.setChild ch v) = descend (c :: s) node := by
  simp [descend_cons, setChild, children, lookup_update_ne _ _ _ _ hne]

end TrieNode

namespace Trie

open TrieNode

theorem descend_inserted_isSome (word : CString) (node : TrieNode) (s : CString) :
    (descend s (inserted word node)).isSome = true ↔
      ((descend s node).isSome = true ∨ s <+: word) := by
  induction word generalizing node s with
  | nil =>
    cases s with
    | nil => simp [descend]
    | cons c s => simp [inserted_nil, descend_markEnd_cons]
  | cons ch rest ih =>
    cases s with
    | nil => simp [descend]
    | cons c s =>
      rw [inserted_cons]
      by_cases hc : c = ch
      · subst hc
        rw [descend_setChild_self, ih, List.cons_prefix_cons, descend_cons]
        cases hl : lookup node.children c with
        | none =>
          simp only [Option.getD_none, Option.bind_none, Option.isSome_none, true_and]
          constructor
          · rintro (h | h)
            · rw [descend_make_unique_isSome] at h
              subst h
              exact Or.inr List.nil_prefix
            · exact Or.inr h
          · rintro (h | h)
            · simp at h
            · exact Or.inr h
        | some child => simp
      · rw [descend_setChild_ne _ _ _ _ _ hc, List.cons_prefix_cons]
        simp [hc]

theorem flagAt_inserted (word : CString) (node : TrieNode) (s : CString) :
    flagAt s (inserted word node) = true ↔ (flagAt s node = true ∨ s = word) := by
  induction word generalizing node s with
  | nil =>
    cases s with
    | nil => simp [flagAt, descend, inserted_nil, markEnd, is_end_of_word]
    | cons c s => simp [flagAt, inserted_nil, descend_markEnd_cons]
  | cons ch rest ih =>
    cases s with
    | nil =>
      simp [flagAt, descend, inserted_cons, setChild, is_end_of_word]
    | cons c s =>
      rw [inserted_cons]
      by_cases hc : c = ch
      · subst hc
        have h1 : flagAt (c :: s) (node.setChild c
            (inserted rest ((lookup node.children c).getD make_unique)))
            = flagAt s (inserted rest ((lookup node.children c).getD make_unique)) := by
          simp [flagAt, descend_setChild_self]
        rw [h1, ih]
        cases hl : lookup node.children c with
        | none =>
          have h2 : flagAt (c :: s) node = false := by simp [flagAt, descend_cons, hl]
          simp [flagAt_make_unique, h2]
        | some child =>
          have h2 : flagAt (c :: s) node = flagAt s child := by simp [flagAt, descend_cons, hl]
          simp [h2]
      · have h1 : flagAt (c :: s) (node.setChild ch
            (inserted rest ((lookup node.children ch).getD make_unique)))
            = flagAt (c :: s) node := by
          simp [flagAt, descend_setChild_ne _ _ _ _ _ hc]
        rw [h1]
        simp [hc]

theorem searchFrom_eq (pfx : CString) (node : TrieNode) :
    searchFrom pfx node = some (descend pfx node).isSome := by
  induction pfx generalizing node with
  | nil => simp [searchFrom, descend]
  | cons ch rest ih =>
    cases hl : lookup node.children ch with
    | none => simp [searchFrom, count, descend_cons, hl]
    | some child => simp [searchFrom, count, childAt, descend_cons, hl, ih]

end Trie

namespace Trie

open TrieNode

theorem insert_eq (t : Trie) (word : CString) :
    t.insert word = some ⟨inserted word t.root⟩ := by
  simp [insert, insertFrom_eq]

theorem insertAll_eq (t : Trie) (ws : List CString) :
    insertAll t ws = some ⟨insertedAll ws t.root⟩ := by
  induction ws generalizing t with
  | nil => simp [insertAll, insertedAll]
  | cons w ws ih => simp [insertAll, insert_eq, ih, insertedAll]

theorem search_eq (t : Trie) (pfx : CString) :
    t.search pfx = some (descend pfx t.root).isSome := by
  simp [search, searchFrom_eq]

theorem descend_insertedAll_isSome (ws : List CString) (node : TrieNode) (s : CString) :
    (descend s (insertedAll ws node)).isSome = true ↔
      ((descend s node).isSome = true ∨ ∃ w ∈ ws, s <+: w) := by
  induction ws generalizing node with
  | nil => simp [insertedAll]
  | cons w ws ih =>
    have h : insertedAll (w :: ws) node = insertedAll ws (inserted w node) := rfl
    rw [h, ih, descend_inserted_isSome]
    simp only [List.mem_cons, exists_eq_or_imp]
    tauto

theorem flagAt_insertedAll (ws : List CString) (node : TrieNode) (s : CString) :
    flagAt s (insertedAll ws node) = true ↔ (flagAt s node = true ∨ s ∈ ws) := by
  induction ws generalizing node with
  | nil => simp [insertedAll]
  | cons w ws ih =>
    have h : insertedAll (w :: ws) node = insertedAll ws (inserted w node) := rfl
    rw [h, ih, flagAt_inserted]
    simp only [List.mem_cons]
    tauto

end Trie

theorem traitsCompare_eq_zero (n : Nat) (a b : CString) (ha : n ≤ a.length)
    (hb : n ≤ b.length) : traitsCompare n a b = 0 ↔ a.take n = b.take n := by
  induction n generalizing a b with
  | zero => simp [traitsCompare]
  | succ n ih =>
    cases a with
    | nil => simp at ha
    | cons x a =>
      cases b with
      | nil => simp at hb
      | cons y b =>
        simp only [List.length_cons, Nat.add_le_add_iff_right] at ha hb
        simp only [traitsCompare, List.take_succ_cons, List.cons.injEq]
        by_cases h1 : x < y
        · simp [h1, ne_of_lt h1]
        · by_cases h2 : y < x
          · simp [h1, h2, (ne_of_lt h2).symm]
          · have : x = y := le_antisymm (not_lt.mp h2) (not_lt.mp h1)
            simp [h1, h2, this, ih a b ha hb]

theorem stringCompare_zero (word p : CString) :
    ∃ r, stringCompare word 0 p.length p = some r ∧ (r = 0 ↔ p <+: word) := by
  have hpre : p <+: word ↔ List.take p.length word = p := by
    rw [List.prefix_iff_eq_take]
    exact eq_comm
  by_cases hlen : p.length ≤ word.length
  · have hsub : (List.take p.length word).length = p.length := by simp [hlen]
    have htc := traitsCompare_eq_zero p.length (List.take p.length word) p
      (by omega) (le_refl _)
    rw [List.take_take, Nat.min_self, List.take_length] at htc
    by_cases hr : traitsCompare p.length (List.take p.length word) p = 0
    · refine ⟨0, ?_, ?_⟩
      · simp [stringCompare, hsub, hr]
      · simp [hpre, htc.mp hr]
    · refine ⟨traitsCompare p.length (List.take p.length word) p, ?_, ?_⟩
      · simp [stringCompare, hsub, hr]
      · rw [hpre, htc]
  · have hlt : word.length < p.length := by omega
    have hsub : (List.take p.length word).length = word.length := by
      simp; omega
    have hnp : ¬ p <+: word := fun h => hlen h.length_le
    by_cases hr : traitsCompare (min word.length p.length) (List.take p.length word) p = 0
    · refine ⟨-1, ?_, ?_⟩
      · simp [stringCompare, hsub, hr, hlt]
      · simp [hnp]
    · refine ⟨traitsCompare (min word.length p.length) (List.take p.length word) p, ?_, ?_⟩
      · simp [stringCompare, hsub, hr]
      · simp [hnp, hr]

namespace HashTable

theorem scan_spec (pfx : CString) (ws : List CString) :
    ∃ b, scan pfx ws = some b ∧ (b = true ↔ ∃ w ∈ ws, pfx <+: w) := by
  induction ws with
  | nil => exact ⟨false, by simp [scan]⟩
  | cons w ws ih =>
    obtain ⟨b, hb, hiff⟩ := ih
    obtain ⟨r, hr, hr0⟩ := stringCompare_zero w pfx
    by_cases hlen : w.length < pfx.length
    · have hnp : ¬ pfx <+: w := fun h => by have := h.length_le; omega
      refine ⟨b, by simp [scan, hlen, hb], ?_⟩
      simp [hiff, hnp]
    · by_cases h0 : r = 0
      · refine ⟨true, by simp [scan, hlen, hr, h0], ?_⟩
        simp [hr0.mp h0]
      · have hnp : ¬ pfx <+: w := fun h => h0 (hr0.mpr h)
        refine ⟨b, by simp [scan, hlen, hr, h0, hb], ?_⟩
        simp [hiff, hnp]

theorem search_spec (h : HashTable) (pfx : CString) :
    ∃ b, h.search pfx = some b ∧ (b = true ↔ ∃ w ∈ h.words, pfx <+: w) := by
  by_cases hm : pfx ∈ h.words
  · exact ⟨true, by simp [search, hm], by simpa using ⟨pfx, hm, List.prefix_refl _⟩⟩
  · obtain ⟨b, hb, hiff⟩ := scan_spec pfx h.words
    exact ⟨b, by simp [search, hm, hb], hiff⟩

theorem mem_insert (h : HashTable) (word w : CString) :
    w ∈ (h.insert word).words ↔ (w ∈ h.words ∨ w = word) := by
  unfold insert
  by_cases hm : word ∈ h.words
  · simp only [hm, if_true]
    constructor
    · exact Or.inl
    · rintro (h1 | h1)
      · exact h1
      · exact h1 ▸ hm
  · simp [hm]

theorem mem_insertAll (h : HashTable) (ws : List CString) (w : CString) :
    w ∈ (insertAll h ws).words ↔ (w ∈ h.words ∨ w ∈ ws) := by
  induction ws generalizing h with
  | nil => simp [insertAll]
  | cons x ws ih =>
    simp only [insertAll, ih, mem_insert, List.mem_cons]
    tauto

theorem search_insertAll_true (ws : List CString) (pfx : CString) :
    (insertAll new ws).search pfx = some true ↔ ∃ w ∈ ws, pfx <+: w := by
  obtain ⟨b, hb, hiff⟩ := search_spec (insertAll new ws) pfx
  have hmem : ∀ w, w ∈ (insertAll new ws).words ↔ w ∈ ws := by
    intro w
    simp [mem_insertAll, new]
  simp only [hmem] at hiff
  rw [hb, ← hiff]
  simp

theorem search_insertAll_false (ws : List CString) (pfx : CString) :
    (insertAll new ws).search pfx = some false ↔ ¬ ∃ w ∈ ws, pfx <+: w := by
  obtain ⟨b, hb, hiff⟩ := search_spec (insertAll new ws) pfx
  have hmem : ∀ w, w ∈ (insertAll new ws).words ↔ w ∈ ws := by
    intro w
    simp [mem_insertAll, new]
  simp only [hmem] at hiff
  rw [hb, ← hiff]
  simp

end HashTable

namespace Trie

open TrieNode

theorem insertAll_new (ws : List CString) : insertAll new ws = some (built ws) :=
  insertAll_eq new ws

theorem built_path (ws : List CString) (p : CString) :
    (descend p (built ws).root).isSome = true ↔ (p = [] ∨ ∃ w ∈ ws, p <+: w) := by
  have hd := descend_insertedAll_isSome ws new.root p
  have hnew : new.root = make_unique := rfl
  rw [hnew, descend_make_unique_isSome] at hd
  exact hd

theorem built_search_true (ws : List CString) (p : CString) :
    (built ws).search p = some true ↔ (p = [] ∨ ∃ w ∈ ws, p <+: w) := by
  rw [search_eq, ← built_path]
  simp

theorem built_search_false (ws : List CString) (p : CString) :
    (built ws).search p = some false ↔ (p ≠ [] ∧ ¬ ∃ w ∈ ws, p <+: w) := by
  rw [search_eq, ← not_or, ← built_path]
  simp

theorem built_flag (ws : List CString) (s : CString) :
    flagAt s (built ws).root = true ↔ s ∈ ws := by
  have hf := flagAt_insertedAll ws new.root s
  have hnew : new.root = make_unique := rfl
  rw [hnew, flagAt_make_unique] at hf
  simpa using hf

end Trie

namespace TrieNode

theorem markEnd_markEnd (node : TrieNode) : node.markEnd.markEnd = node.markEnd := by
  simp [markEnd, children]

theorem setChild_setChild (node : TrieNode) (ch : Char) (a b : TrieNode) :
    (node.setChild ch a).setChild ch b = node.setChild ch b := by
  simp [setChild, children, is_end_of_word, update_update]

theorem lookup_setChild_self (node : TrieNode) (ch : Char) (v : TrieNode) :
    lookup (node.setChild ch v).children ch = some v := by
  simp [setChild, children, lookup_update_self]

theorem size_markEnd (node : TrieNode) : node.markEnd.size = node.size := by
  obtain ⟨cs, e⟩ := node
  simp [markEnd, children, size]

theorem size_make_unique : make_unique.size = 1 := by
  simp [make_unique, size, sizeList]

theorem size_setChild (node : TrieNode) (ch : Char) (v : TrieNode) :
    (node.setChild ch v).size + (match lookup node.children ch with
      | some o => size o | none => 0) = node.size + v.size := by
  obtain ⟨cs, e⟩ := node
  have h := sizeList_update cs ch v
  simp only [setChild, children, size]
  omega

theorem matched_make_unique (word : CString) : matched word make_unique = 0 := by
  cases word <;> simp [matched, make_unique, children, lookup]

theorem matched_le_length (word : CString) (node : TrieNode) :
    matched word node ≤ word.length := by
  induction word generalizing node with
  | nil => simp [matched]
  | cons ch rest ih =>
    cases hl : lookup node.children ch with
    | none => simp [matched, hl]
    | some child =>
      have := ih child
      simp [matched, hl, this]

theorem descend_take_isSome (word : CString) (node : TrieNode) (j : Nat)
    (hj : j ≤ word.length) :
    (descend (word.take j) node).isSome = true ↔ j ≤ matched word node := by
  induction word generalizing node j with
  | nil =>
    have : j = 0 := by simpa using hj
    subst this
    simp [descend]
  | cons ch rest ih =>
    cases j with
    | zero => simp [descend]
    | succ j =>
      simp only [List.length_cons, Nat.add_le_add_iff_right] at hj
      rw [List.take_succ_cons, descend_cons]
      cases hl : lookup node.children ch with
      | none => simp [matched, hl]
      | some child =>
        simp only [Option.some_bind, matched, hl, Nat.add_le_add_iff_right]
        exact ih child j hj

end TrieNode

namespace Trie

open TrieNode

theorem inserted_idem (word : CString) (node : TrieNode) :
    inserted word (inserted word node) = inserted word node := by
  induction word generalizing node with
  | nil => simp [inserted_nil, markEnd_markEnd]
  | cons ch rest ih =>
    rw [inserted_cons ch rest node, inserted_cons, lookup_setChild_self, Option.getD_some,
      setChild_setChild, ih]

theorem size_inserted (word : CString) (node : TrieNode) :
    (inserted word node).size + matched word node = node.size + word.length := by
  induction word generalizing node with
  | nil => simp [inserted_nil, size_markEnd, matched]
  | cons ch rest ih =>
    rw [inserted_cons]
    have h1 := size_setChild node ch (inserted rest ((lookup node.children ch).getD make_unique))
    have h2 := ih ((lookup node.children ch).getD make_unique)
    cases hl : lookup node.children ch with
    | none =>
      simp only [hl, Option.getD_none, matched_make_unique, size_make_unique] at h1 h2
      simp only [hl, Option.getD_none, matched, List.length_cons]
      omega
    | some child =>
      simp only [hl, Option.getD_some] at h1 h2
      simp only [hl, Option.getD_some, matched, List.length_cons]
      omega

theorem flag_of_descend (s : CString) (node m : TrieNode) (h : descend s node = some m) :
    flagAt s node = m.is_end_of_word := by
  simp [flagAt, h]

end Trie

namespace HashTable

theorem insert_insert (h : HashTable) (word : CString) :
    (h.insert word).insert word = h.insert word := by
  have hm : word ∈ (h.insert word).words := (mem_insert h word word).mpr (Or.inr rfl)
  generalize h.insert word = h1 at hm
  simp [insert, hm]

end HashTable

namespace TrieNode

theorem childAt_of_count (node : TrieNode) (ch : Char) (h : node.count ch ≠ 0) :
    ∃ child, node.childAt ch = some child := by
  cases hl : lookup node.children ch with
  | none => simp [count, hl] at h
  | some child => exact ⟨child, by simp [childAt, hl]⟩

theorem childIndex_after_guard (node : TrieNode) (ch : Char) :
    ∃ child, (if node.count ch = 0 then node.setChild ch make_unique
      else node).childIndex ch = some child := by
  cases hl : lookup node.children ch with
  | none =>
    refine ⟨make_unique, ?_⟩
    have h0 : node.count ch = 0 := by simp [count, hl]
    rw [if_pos h0]
    exact lookup_setChild_self node ch make_unique
  | some child =>
    refine ⟨child, ?_⟩
    have h1 : ¬ node.count ch = 0 := by simp [count, hl]
    rw [if_neg h1]
    simp [childIndex, hl]

end TrieNode

theorem stringCompare_pos_zero (word : CString) (n : Nat) (str : CString) :
    ∃ r, stringCompare word 0 n str = some r := by
  unfold stringCompare
  simp only [Nat.not_lt_zero, if_false]
  split_ifs <;> exact ⟨_, rfl⟩

namespace HashTable

theorem search_isSome (h : HashTable) (pfx : CString) : ∃ b, h.search pfx = some b := by
  obtain ⟨b, hb, -⟩ := search_spec h pfx
  exact ⟨b, hb⟩

theorem scanNoSkip_eq_scan (pfx : CString) (ws : List CString) :
    scanNoSkip pfx ws = scan pfx ws := by
  induction ws with
  | nil => rfl
  | cons w ws ih =>
    obtain ⟨r, hr, hr0⟩ := stringCompare_zero w pfx
    by_cases hlen : w.length < pfx.length
    · have hnp : ¬ pfx <+: w := fun hp => by have := hp.length_le; omega
      have h0 : ¬ r = 0 := fun h0 => hnp (hr0.mp h0)
      simp [scanNoSkip, scan, hlen, hr, h0, ih]
    · simp [scanNoSkip, scan, hlen, hr, ih]

theorem search_eq_scan (h : HashTable) (pfx : CString) :
    h.search pfx = scan pfx h.words := by
  by_cases hm : pfx ∈ h.words
  · obtain ⟨b, hb, hiff⟩ := scan_spec pfx h.words
    have hb1 : b = true := hiff.mpr ⟨pfx, hm, List.prefix_refl _⟩
    subst hb1
    simp [search, hm, hb]
  · simp [search, hm]

end HashTable

theorem insertLoop_trie (t : Trie) (words : List CString) :
    insertLoop Trie.insert t words = Trie.insertAll t words := by
  induction words generalizing t with
  | nil => rfl
  | cons w ws ih =>
    simp only [insertLoop, Trie.insertAll]
    cases Trie.insert t w with
    | none => rfl
    | some t1 => exact ih t1

theorem insertLoop_hashtable (h : HashTable) (words : List CString) :
    insertLoop HashTable.insertOk h words = some (HashTable.insertAll h words) := by
  induction words generalizing h with
  | nil => rfl
  | cons w ws ih =>
    simp only [insertLoop, HashTable.insertOk, HashTable.insertAll]
    exact ih _

theorem searchLoop_total {T : Type} (search : T → CString → Option Bool) (c : T)
    (htotal : ∀ p, ∃ b, search c p = some b) (pfxs : List CString) :
    ∃ bs, searchLoop search c pfxs = some bs ∧ bs.length = pfxs.length ∧
      pfxs.map (search c) = bs.map some := by
  induction pfxs with
  | nil => exact ⟨[], rfl, rfl, rfl⟩
  | cons p ps ih =>
    obtain ⟨bs, hbs, hlen, hmap⟩ := ih
    obtain ⟨b, hb⟩ := htotal p
    refine ⟨b :: bs, ?_, ?_, ?_⟩
    · simp [searchLoop, hb, hbs]
    · simp [hlen]
    · simp [hb, hmap]

namespace TrieNode

theorem descend_append (q r : CString) (node : TrieNode) :
    descend (q ++ r) node = (descend q node).bind (descend r) := by
  induction q generalizing node with
  | nil => simp [descend]
  | cons c q ih =>
    rw [List.cons_append, descend_cons, descend_cons]
    cases lookup node.children c with
    | none => rfl
    | some child => simp [ih]

theorem descend_isSome_of_prefix (q p : CString) (node : TrieNode) (hq : q <+: p)
    (hp : (descend p node).isSome = true) : (descend q node).isSome = true := by
  obtain ⟨r, rfl⟩ := hq
  rw [descend_append] at hp
  cases hd : descend q node with
  | none => simp [hd] at hp
  | some m => rfl

end TrieNode

theorem mem_nonemptyPrefixes (ws : List CString) (s : CString) :
    s ∈ nonemptyPrefixes ws ↔ (s ≠ [] ∧ ∃ w ∈ ws, s <+: w) := by
  simp only [nonemptyPrefixes, List.mem_toFinset, List.mem_filter, List.mem_flatMap,
    List.mem_inits, decide_eq_true_eq]
  tauto

namespace Trie

open TrieNode

theorem built_snoc (ws : List CString) (w : CString) :
    (built (ws ++ [w])).root = inserted w (built ws).root := by
  simp [built, insertedAll, List.foldl_append]

theorem nonemptyPrefixes_snoc (ws : List CString) (w : CString) :
    (nonemptyPrefixes (ws ++ [w])).card =
      (nonemptyPrefixes ws).card + (w.length - matched w (built ws).root) := by
  have hm := matched_le_length w (built ws).root
  have hpath : ∀ j, j ≤ w.length → 0 < j →
      (w.take j ∈ nonemptyPrefixes ws ↔ j ≤ matched w (built ws).root) := by
    intro j hj hpos
    have hne : w.take j ≠ [] := by
      intro h0
      have hl := congrArg List.length h0
      simp only [List.length_take, List.length_nil] at hl
      omega
    rw [mem_nonemptyPrefixes, ← descend_take_isSome w _ j hj, built_path]
    simp [hne]
  have hunion : nonemptyPrefixes (ws ++ [w]) = nonemptyPrefixes ws ∪
      (Finset.Ioc (matched w (built ws).root) w.length).image (fun j => w.take j) := by
    ext s
    simp only [Finset.mem_union, Finset.mem_image, Finset.mem_Ioc, mem_nonemptyPrefixes,
      List.mem_append, List.mem_singleton]
    constructor
    · rintro ⟨hne, v, hv | rfl, hpre⟩
      · exact Or.inl ⟨hne, v, hv, hpre⟩
      · have hs : s = v.take s.length := List.prefix_iff_eq_take.mp hpre
        have hlen : s.length ≤ v.length := hpre.length_le
        have hpos : 0 < s.length := List.length_pos.mpr hne
        by_cases hj : s.length ≤ matched v (built ws).root
        · left
          have := (hpath s.length hlen hpos).mpr hj
          rw [← hs] at this
          exact (mem_nonemptyPrefixes ws s).mp this
        · right
          exact ⟨s.length, ⟨by omega, hlen⟩, hs.symm⟩
    · rintro (⟨hne, v, hv, hpre⟩ | ⟨j, ⟨hj1, hj2⟩, rfl⟩)
      · exact ⟨hne, v, Or.inl hv, hpre⟩
      · refine ⟨?_, w, Or.inr rfl, List.take_prefix _ _⟩
        intro h0
        have hl := congrArg List.length h0
        simp only [List.length_take, List.length_nil] at hl
        omega
  have hdisj : Disjoint (nonemptyPrefixes ws)
      ((Finset.Ioc (matched w (built ws).root) w.length).image (fun j => w.take j)) := by
    rw [Finset.disjoint_left]
    intro s hs hs2
    simp only [Finset.mem_image, Finset.mem_Ioc] at hs2
    obtain ⟨j, ⟨hj1, hj2⟩, rfl⟩ := hs2
    have := (hpath j hj2 (by omega)).mp hs
    omega
  have hcard : ((Finset.Ioc (matched w (built ws).root) w.length).image
      (fun j => w.take j)).card = w.length - matched w (built ws).root := by
    rw [Finset.card_image_of_injOn, Nat.card_Ioc]
    intro i hi j hj hij
    simp only [Finset.coe_Ioc, Set.mem_Ioc] at hi hj
    have hl := congrArg List.length hij
    simp only [List.length_take] at hl
    omega
  rw [hunion, Finset.card_union_of_disjoint hdisj, hcard]

theorem size_built (ws : List CString) :
    (built ws).root.size = 1 + (nonemptyPrefixes ws).card := by
  induction ws using List.reverseRecOn with
  | nil => simp [built, insertedAll, new, size_make_unique, nonemptyPrefixes]
  | append_singleton ws w ih =>
    rw [built_snoc, nonemptyPrefixes_snoc]
    have h1 := size_inserted w (built ws).root
    have h2 := matched_le_length w (built ws).root
    omega

end Trie

namespace TrieNode

theorem size_le_of_lookup (cs : List (Char × TrieNode)) (ch : Char) (x : TrieNode)
    (h : lookup cs ch = some x) : size x ≤ sizeList cs := by
  induction cs with
  | nil => simp [lookup] at h
  | cons hd tl ih =>
    obtain ⟨k, v⟩ := hd
    by_cases hk : k = ch
    · simp only [lookup, hk, if_true, Option.some.injEq] at h
      subst h
      simp [sizeList]
    · simp only [lookup, hk, if_false] at h
      have := ih h
      simp only [sizeList]
      omega

theorem size_child_lt (node : TrieNode) (ch : Char) (x : TrieNode)
    (h : lookup node.children ch = some x) : size x < size node := by
  obtain ⟨cs, e⟩ := node
  have := size_le_of_lookup cs ch x h
  simp only [size]
  omega

theorem descend_child (node : TrieNode) (ch : Char) (x : TrieNode)
    (h : lookup node.children ch = some x) (s : CString) :
    descend (ch :: s) node = descend s x := by
  simp [descend_cons, h]

theorem flagAt_child (node : TrieNode) (ch : Char) (x : TrieNode)
    (h : lookup node.children ch = some x) (s : CString) :
    flagAt (ch :: s) node = flagAt s x := by
  simp [flagAt, descend_child node ch x h]

theorem descend_single_isSome (node : TrieNode) (ch : Char) :
    (descend [ch] node).isSome = (lookup node.children ch).isSome := by
  rw [descend_cons]
  cases lookup node.children ch <;> rfl

theorem sameTree_of_paths (n : Nat) (a b : TrieNode) (hn : a.size ≤ n)
    (h : ∀ s, (descend s a).isSome = (descend s b).isSome ∧ flagAt s a = flagAt s b) :
    SameTree a b := by
  induction n generalizing a b with
  | zero =>
    obtain ⟨cs, e⟩ := a
    simp [size] at hn
  | succ n ih =>
    refine SameTree.intro a b ?_ ?_ ?_
    · have := (h []).2
      simpa [flagAt, descend] using this
    · intro ch
      have := (h [ch]).1
      rw [descend_single_isSome, descend_single_isSome] at this
      cases ha : lookup a.children ch <;> cases hb : lookup b.children ch <;>
        simp [ha, hb] at this ⊢
    · intro ch x y hx hy
      apply ih x y
      · have := size_child_lt a ch x hx
        omega
      · intro s
        have hs := h (ch :: s)
        rw [descend_child a ch x hx, descend_child b ch y hy, flagAt_child a ch x hx,
          flagAt_child b ch y hy] at hs
        exact hs

theorem mem_keys_update (cs : List (Char × TrieNode)) (ch k : Char) (v : TrieNode) :
    k ∈ (update cs ch v).map Prod.fst ↔ (k ∈ cs.map Prod.fst ∨ k = ch) := by
  induction cs with
  | nil => simp [update]
  | cons hd tl ih =>
    obtain ⟨c, w⟩ := hd
    by_cases hc : c = ch
    · subst hc
      simp only [update, if_true, List.map_cons, List.mem_cons]
      tauto
    · simp only [update, hc, if_false, List.map_cons, List.mem_cons, ih]
      tauto

theorem nodup_keys_update (cs : List (Char × TrieNode)) (ch : Char) (v : TrieNode)
    (h : (cs.map Prod.fst).Nodup) : ((update cs ch v).map Prod.fst).Nodup := by
  induction cs with
  | nil => simp [update]
  | cons hd tl ih =>
    obtain ⟨c, w⟩ := hd
    simp only [List.map_cons, List.nodup_cons] at h
    by_cases hc : c = ch
    · simp only [update, hc, if_true, List.map_cons, List.nodup_cons]
      rw [← hc]
      exact h
    · simp only [update, hc, if_false, List.map_cons, List.nodup_cons, mem_keys_update]
      refine ⟨?_, ih h.2⟩
      rintro (hm | hm)
      · exact h.1 hm
      · first
          | exact hc hm
          | exact hm

theorem uniqueKeys_make_unique : UniqueKeys make_unique := by
  intro s m hm
  cases s with
  | nil =>
    simp only [descend, Option.some.injEq] at hm
    subst hm
    simp [make_unique, children]
  | cons c s => simp [descend_make_unique_cons] at hm

theorem uniqueKeys_child (node : TrieNode) (ch : Char) (x : TrieNode)
    (h : lookup node.children ch = some x) (hu : UniqueKeys node) : UniqueKeys x := by
  intro s m hm
  exact hu (ch :: s) m (by rw [descend_child node ch x h]; exact hm)

end TrieNode

namespace Trie

open TrieNode

theorem uniqueKeys_inserted (word : CString) (node : TrieNode) (hu : UniqueKeys node) :
    UniqueKeys (inserted word node) := by
  induction word generalizing node with
  | nil =>
    intro s m hm
    cases s with
    | nil =>
      simp only [inserted_nil, descend, Option.some.injEq] at hm
      subst hm
      have := hu [] node rfl
      simpa [markEnd, children] using this
    | cons c s =>
      rw [inserted_nil, descend_markEnd_cons] at hm
      exact hu _ m hm
  | cons ch rest ih =>
    have hchild : UniqueKeys ((lookup node.children ch).getD make_unique) := by
      cases hl : lookup node.children ch with
      | none => exact uniqueKeys_make_unique
      | some x => exact uniqueKeys_child node ch x hl hu
    intro s m hm
    rw [inserted_cons] at hm
    cases s with
    | nil =>
      simp only [descend, Option.some.injEq] at hm
      subst hm
      have := hu [] node rfl
      simpa [setChild, children] using nodup_keys_update node.children ch _ this
    | cons c s =>
      by_cases hc : c = ch
      · subst hc
        rw [descend_setChild_self] at hm
        exact ih _ hchild s m hm
      · rw [descend_setChild_ne _ _ _ _ _ hc] at hm
        exact hu _ m hm

theorem uniqueKeys_insertedAll (ws : List CString) (node : TrieNode) (hu : UniqueKeys node) :
    UniqueKeys (insertedAll ws node) := by
  induction ws generalizing node with
  | nil => exact hu
  | cons w ws ih => exact ih _ (uniqueKeys_inserted w node hu)

theorem sameTree_swap (a b : CString) (node : TrieNode) :
    SameTree (inserted b (inserted a node)) (inserted a (inserted b node)) := by
  apply sameTree_of_paths _ _ _ (le_refl _)
  intro s
  constructor
  · rw [Bool.eq_iff_iff]
    simp only [descend_inserted_isSome]
    tauto
  · rw [Bool.eq_iff_iff]
    simp only [flagAt_inserted]
    tauto

theorem sameTree_built_perm (vs vs1 : List CString) (hperm : vs.Perm vs1) :
    SameTree (built vs).root (built vs1).root := by
  apply sameTree_of_paths _ _ _ (le_refl _)
  intro s
  constructor
  · rw [Bool.eq_iff_iff, built_path, built_path]
    simp only [hperm.mem_iff]
  · rw [Bool.eq_iff_iff, built_flag, built_flag, hperm.mem_iff]

theorem search_built_perm (vs vs1 : List CString) (hperm : vs.Perm vs1) (p : CString) :
    (built vs).search p = (built vs1).search p := by
  rw [search_eq, search_eq, Option.some.injEq, Bool.eq_iff_iff, built_path, built_path]
  simp only [hperm.mem_iff]

end Trie

namespace HashTable

theorem search_insertAll_perm (vs vs1 : List CString) (hperm : vs.Perm vs1) (p : CString) :
    (insertAll new vs).search p = (insertAll new vs1).search p := by
  obtain ⟨b, hb, hiff⟩ := search_spec (insertAll new vs) p
  obtain ⟨b1, hb1, hiff1⟩ := search_spec (insertAll new vs1) p
  have hmem : ∀ w, w ∈ (insertAll new vs).words ↔ w ∈ (insertAll new vs1).words := by
    intro w
    simp [mem_insertAll, new, hperm.mem_iff]
  simp only [hmem] at hiff
  rw [hb, hb1, Option.some.injEq, Bool.eq_iff_iff, hiff, hiff1]

end HashTable


/-! ## C1: negative law of the Trie -/

/-- C1, stated as written, fails on the empty vocabulary with the empty prefix:
no word was inserted, so no inserted word starts with `""`, yet
`Trie::search("")` returns true on the freshly constructed trie. -/
theorem trie_negative_law_fails_on_empty :
    Trie.insertAll Trie.new [] = some Trie.new ∧
    Trie.new.search [] = some true ∧
    (¬ ∃ w ∈ ([] : List CString), ([] : CString) <+: w) ∧
    ¬ (Trie.new.search [] = some false ↔
        ¬ ∃ w ∈ ([] : List CString), ([] : CString) <+: w) := by
  refine ⟨rfl, rfl, by simp, ?_⟩
  intro h
  have h1 : Trie.new.search [] = some false := h.mpr (by simp)
  have h2 : Trie.new.search [] = some true := rfl
  rw [h2] at h1
  cases h1

/-- C1 (amended): for every list `ws` of words inserted into a fresh Trie and
every string `p`, the insertions succeed and `Trie::search(p)` returns false
if and only if `p` is non-empty and no inserted word starts with `p`; it
returns true if and only if `p` is empty or some inserted word starts with
`p`; and the path spelling `p` from the root exists in exactly that case. -/
theorem trie_negative_law (ws : List CString) (p : CString) :
    ∃ t, Trie.insertAll Trie.new ws = some t ∧
      (t.search p = some false ↔ (p ≠ [] ∧ ¬ ∃ w ∈ ws, p <+: w)) ∧
      (t.search p = some true ↔ (p = [] ∨ ∃ w ∈ ws, p <+: w)) ∧
      ((t.root.descend p).isSome = true ↔ (p = [] ∨ ∃ w ∈ ws, p <+: w)) :=
  ⟨Trie.built ws, Trie.insertAll_new ws, Trie.built_search_false ws p,
    Trie.built_search_true ws p, Trie.built_path ws p⟩

/-! ## C2: negative law of the HashTable -/

/-- C2: for every list `ws` of words inserted into a fresh HashTable and every
string `p`, `HashTable::search(p)` returns true if and only if some inserted
word starts with `p`, and returns false if and only if none does. -/
theorem hashtable_negative_law (ws : List CString) (p : CString) :
    ((HashTable.insertAll HashTable.new ws).search p = some true ↔ ∃ w ∈ ws, p <+: w) ∧
    ((HashTable.insertAll HashTable.new ws).search p = some false ↔
      ¬ ∃ w ∈ ws, p <+: w) :=
  ⟨HashTable.search_insertAll_true ws p, HashTable.search_insertAll_false ws p⟩

/-! ## C3: agreement of the two structures -/

/-- C3, stated as written, fails on the empty vocabulary with the empty prefix:
`Trie::search("")` returns true and `HashTable::search("")` returns false. -/
theorem agreement_fails_on_empty :
    Trie.insertAll Trie.new [] = some Trie.new ∧
    Trie.new.search [] = some true ∧
    (HashTable.insertAll HashTable.new []).search [] = some false ∧
    Trie.new.search [] ≠ (HashTable.insertAll HashTable.new []).search [] := by
  refine ⟨rfl, rfl, rfl, ?_⟩
  intro h
  have h1 : Trie.new.search [] = some true := rfl
  have h2 : (HashTable.insertAll HashTable.new []).search [] = some false := rfl
  rw [h1, h2] at h
  cases h

/-- C3 (amended): for every vocabulary `ws` inserted in the same order into a
fresh Trie and a fresh HashTable and every prefix `p`, where the vocabulary is
non-empty or the prefix is non-empty, the insertions succeed and
`Trie::search(p)` returns the same boolean as `HashTable::search(p)`. -/
theorem search_agreement (ws : List CString) (p : CString) (h : ws ≠ [] ∨ p ≠ []) :
    ∃ t b, Trie.insertAll Trie.new ws = some t ∧ t.search p = some b ∧
      (HashTable.insertAll HashTable.new ws).search p = some b := by
  by_cases hex : ∃ w ∈ ws, p <+: w
  · exact ⟨Trie.built ws, true, Trie.insertAll_new ws,
      (Trie.built_search_true ws p).mpr (Or.inr hex),
      (HashTable.search_insertAll_true ws p).mpr hex⟩
  · have hp : p ≠ [] := by
      intro hp
      subst hp
      rcases h with h | h
      · obtain ⟨w, ws1, rfl⟩ := List.exists_cons_of_ne_nil h
        exact hex ⟨w, List.mem_cons_self _ _, List.nil_prefix⟩
      · exact h rfl
    exact ⟨Trie.built ws, false, Trie.insertAll_new ws,
      (Trie.built_search_false ws p).mpr ⟨hp, hex⟩,
      (HashTable.search_insertAll_false ws p).mpr hex⟩

/-- C3 (amended) at the vocabulary `["cat", "car", "dog"]` and the prefix `"ca"`. -/
theorem search_agreement_witness :
    ∃ t b, Trie.insertAll Trie.new [['c', 'a', 't'], ['c', 'a', 'r'], ['d', 'o', 'g']] = some t ∧
      t.search ['c', 'a'] = some b ∧
      (HashTable.insertAll HashTable.new
        [['c', 'a', 't'], ['c', 'a', 'r'], ['d', 'o', 'g']]).search ['c', 'a'] = some b :=
  search_agreement [['c', 'a', 't'], ['c', 'a', 'r'], ['d', 'o', 'g']] ['c', 'a']
    (Or.inl (by decide))

/-! ## C4: prefix containment -/

/-- C4: for both structures, for every list `ws` of inserted words, every word
`W` of that list and every prefix `P` of `W` (the empty one and `W` itself
included), the insertions succeed and `search(P)` returns true. -/
theorem prefix_containment (ws : List CString) (W P : CString) (hW : W ∈ ws)
    (hP : P <+: W) :
    (∃ t, Trie.insertAll Trie.new ws = some t ∧ t.search P = some true) ∧
    (HashTable.insertAll HashTable.new ws).search P = some true :=
  ⟨⟨Trie.built ws, Trie.insertAll_new ws,
      (Trie.built_search_true ws P).mpr (Or.inr ⟨W, hW, hP⟩)⟩,
    (HashTable.search_insertAll_true ws P).mpr ⟨W, hW, hP⟩⟩

/-- C4 at the vocabulary `["cat", "car", "dog"]`, the word `"car"` and its
prefix `"ca"`. -/
theorem prefix_containment_witness :
    (['c', 'a', 'r'] : CString) ∈
        ([['c', 'a', 't'], ['c', 'a', 'r'], ['d', 'o', 'g']] : List CString) ∧
    (['c', 'a'] : CString) <+: ['c', 'a', 'r'] ∧
    (∃ t, Trie.insertAll Trie.new [['c', 'a', 't'], ['c', 'a', 'r'], ['d', 'o', 'g']] = some t ∧
      t.search ['c', 'a'] = some true) ∧
    (HashTable.insertAll HashTable.new
      [['c', 'a', 't'], ['c', 'a', 'r'], ['d', 'o', 'g']]).search ['c', 'a'] = some true :=
  ⟨by decide, by decide,
    prefix_containment [['c', 'a', 't'], ['c', 'a', 'r'], ['d', 'o', 'g']]
      ['c', 'a', 'r'] ['c', 'a'] (by decide) (by decide)⟩

/-! ## C5 and C6: the empty prefix -/

/-- C5: for every Trie state reached from the constructor by inserting a list
of words (the empty list included), the insertions succeed and
`Trie::search("")` returns true. -/
theorem trie_search_empty (ws : List CString) :
    ∃ t, Trie.insertAll Trie.new ws = some t ∧ t.search [] = some true :=
  ⟨Trie.built ws, Trie.insertAll_new ws, (Trie.built_search_true ws []).mpr (Or.inl rfl)⟩

/-- C6, stated as written, fails on the empty vocabulary: `HashTable::search("")`
returns false on a HashTable into which nothing was inserted. -/
theorem hashtable_search_empty_fails_on_empty :
    (HashTable.insertAll HashTable.new []).search [] = some false ∧
    (HashTable.insertAll HashTable.new []).search [] ≠ some true := by
  refine ⟨rfl, ?_⟩
  intro h
  have h2 : (HashTable.insertAll HashTable.new []).search [] = some false := rfl
  rw [h2] at h
  cases h

/-- C6 (amended): for every HashTable state reached by inserting a non-empty
list of words, `HashTable::search("")` returns true; on the empty vocabulary
`HashTable::search("a")` returns false and `HashTable::search("")` returns
false. -/
theorem hashtable_search_empty (ws : List CString) (h : ws ≠ []) :
    (HashTable.insertAll HashTable.new ws).search [] = some true ∧
    (HashTable.insertAll HashTable.new []).search ['a'] = some false ∧
    (HashTable.insertAll HashTable.new []).search [] = some false := by
  refine ⟨?_, rfl, rfl⟩
  obtain ⟨w, ws1, rfl⟩ := List.exists_cons_of_ne_nil h
  exact (HashTable.search_insertAll_true _ _).mpr ⟨w, List.mem_cons_self _ _, List.nil_prefix⟩

/-- C6 (amended) at the vocabulary `["a"]`. -/
theorem hashtable_search_empty_witness :
    ([['a']] : List CString) ≠ [] ∧
    (HashTable.insertAll HashTable.new [['a']]).search [] = some true ∧
    (HashTable.insertAll HashTable.new []).search ['a'] = some false ∧
    (HashTable.insertAll HashTable.new []).search [] = some false :=
  ⟨by decide, hashtable_search_empty [['a']] (by decide)⟩

/-! ## C7: idempotence of insert -/

/-- C7: for every Trie state `s`, every HashTable state `h` (the reachable ones
in particular) and every string `W`, inserting `W` succeeds; inserting `W` a
second time yields a trie structurally equal to the one after the first
insertion and a HashTable with the same stored words; and `search(P)` returns
the same result after two insertions as after one, for every string `P`. -/
theorem insert_idempotent (s : Trie) (h : HashTable) (W : CString) :
    (∃ s1, s.insert W = some s1 ∧ s1.insert W = some s1 ∧
      ∀ P, ∃ s2, s1.insert W = some s2 ∧ s2.search P = s1.search P) ∧
    ((h.insert W).insert W).words = (h.insert W).words ∧
    ∀ P, ((h.insert W).insert W).search P = (h.insert W).search P := by
  have hs : (Trie.mk (Trie.inserted W s.root)).insert W
      = some ⟨Trie.inserted W s.root⟩ := by
    rw [Trie.insert_eq, Trie.inserted_idem]
  refine ⟨⟨⟨Trie.inserted W s.root⟩, Trie.insert_eq s W, hs, fun P => ⟨_, hs, rfl⟩⟩, ?_, ?_⟩
  · rw [HashTable.insert_insert]
  · intro P
    rw [HashTable.insert_insert]

/-! ## C8: terminal flags of the Trie -/

/-- C8: after inserting any list `ws` of words into a fresh Trie, for every
string `S` whose path from the root exists, the node at the end of that path
has `is_end_of_word = true` if and only if `S` is one of the inserted words;
the root is terminal if and only if the empty string was inserted; and
inserting the empty string succeeds, marks the root terminal, leaves the
child map of the root as it was and creates no node. -/
theorem terminal_flag_invariant (ws : List CString) :
    ∃ t, Trie.insertAll Trie.new ws = some t ∧
      (∀ S n, t.root.descend S = some n → (n.is_end_of_word = true ↔ S ∈ ws)) ∧
      (t.root.is_end_of_word = true ↔ [] ∈ ws) ∧
      ∃ t1, t.insert [] = some t1 ∧ t1.root.is_end_of_word = true ∧
        t1.root.children = t.root.children ∧ t1.nodeCount = t.nodeCount := by
  refine ⟨Trie.built ws, Trie.insertAll_new ws, ?_, ?_, ?_⟩
  · intro S n hn
    rw [← Trie.flag_of_descend S _ n hn]
    exact Trie.built_flag ws S
  · rw [← Trie.flag_of_descend [] (Trie.built ws).root (Trie.built ws).root rfl]
    exact Trie.built_flag ws []
  · refine ⟨⟨(Trie.built ws).root.markEnd⟩, ?_, ?_, ?_, ?_⟩
    · rw [Trie.insert_eq, Trie.inserted_nil]
    · simp [TrieNode.markEnd, TrieNode.is_end_of_word]
    · simp [TrieNode.markEnd, TrieNode.children]
    · simp [Trie.nodeCount, TrieNode.size_markEnd]

/-! ## C9: monotonicity of the insert-only Trie -/

/-- C9: for every Trie state `t` (the reachable ones in particular) and all
strings `W` and `P`, if `Trie::search(P)` returns true on `t` then `insert(W)`
succeeds and `search(P)` still returns true afterwards; every node of `t`
(given by its path) is still present after the insertion, a set terminal
flag stays set, and the number of nodes does not decrease. -/
theorem trie_insert_monotone (t : Trie) (W P : CString) (h : t.search P = some true) :
    ∃ t1, t.insert W = some t1 ∧ t1.search P = some true ∧
      (∀ S n, t.root.descend S = some n →
        ∃ n1, t1.root.descend S = some n1 ∧
          (n.is_end_of_word = true → n1.is_end_of_word = true)) ∧
      t.nodeCount ≤ t1.nodeCount := by
  refine ⟨⟨Trie.inserted W t.root⟩, Trie.insert_eq t W, ?_, ?_, ?_⟩
  · rw [Trie.search_eq] at h ⊢
    have hP : (TrieNode.descend P t.root).isSome = true := by simpa using h
    have := (Trie.descend_inserted_isSome W t.root P).mpr (Or.inl hP)
    simpa using this
  · intro S n hn
    have hS : (TrieNode.descend S (Trie.inserted W t.root)).isSome = true :=
      (Trie.descend_inserted_isSome W t.root S).mpr (Or.inl (by simp [hn]))
    obtain ⟨n1, hn1⟩ := Option.isSome_iff_exists.mp hS
    refine ⟨n1, hn1, fun hflag => ?_⟩
    rw [← Trie.flag_of_descend S _ n1 hn1]
    refine (Trie.flagAt_inserted W t.root S).mpr (Or.inl ?_)
    rw [Trie.flag_of_descend S _ n hn]
    exact hflag
  · have h1 := Trie.size_inserted W t.root
    have h2 := TrieNode.matched_le_length W t.root
    simp only [Trie.nodeCount]
    omega

/-- C9 at the trie holding `"a"`, the inserted word `"b"` and the prefix `"a"`. -/
theorem trie_insert_monotone_witness :
    (Trie.mk (TrieNode.mk [('a', TrieNode.mk [] true)] false)).search ['a'] = some true ∧
    ∃ t1, (Trie.mk (TrieNode.mk [('a', TrieNode.mk [] true)] false)).insert ['b'] = some t1 ∧
      t1.search ['a'] = some true ∧
      (∀ S n, (Trie.mk (TrieNode.mk [('a', TrieNode.mk [] true)] false)).root.descend S = some n →
        ∃ n1, t1.root.descend S = some n1 ∧
          (n.is_end_of_word = true → n1.is_end_of_word = true)) ∧
      (Trie.mk (TrieNode.mk [('a', TrieNode.mk [] true)] false)).nodeCount ≤ t1.nodeCount :=
  ⟨rfl, trie_insert_monotone (Trie.mk (TrieNode.mk [('a', TrieNode.mk [] true)] false))
    ['b'] ['a'] rfl⟩

/-! ## C10: nodes created by one insertion -/

/-- C10: for every Trie state `t` (the reachable ones in particular) and every
string `W` of length `L`, `insert(W)` succeeds and there is a `k ≤ L`, the
length of the longest prefix of `W` on which `search` returns true in `t`
(the longest prefix whose path exists), such that the number of nodes after
the insertion is the number before plus `L - k`; so the increase is at most
`L`, and it is 0 when the whole path of `W` exists in `t`. -/
theorem insert_node_count (t : Trie) (W : CString) :
    ∃ t1 k, t.insert W = some t1 ∧
      k ≤ W.length ∧ t.search (W.take k) = some true ∧
      (∀ j, j ≤ W.length → t.search (W.take j) = some true → j ≤ k) ∧
      t1.nodeCount = t.nodeCount + (W.length - k) ∧
      t1.nodeCount ≤ t.nodeCount + W.length ∧
      (t.search W = some true → t1.nodeCount = t.nodeCount) := by
  have hle := TrieNode.matched_le_length W t.root
  have hsz := Trie.size_inserted W t.root
  have hsearch : ∀ j, j ≤ W.length →
      (t.search (W.take j) = some true ↔ j ≤ TrieNode.matched W t.root) := by
    intro j hj
    rw [Trie.search_eq, ← TrieNode.descend_take_isSome W t.root j hj]
    simp
  refine ⟨⟨Trie.inserted W t.root⟩, TrieNode.matched W t.root, Trie.insert_eq t W, hle,
    (hsearch _ hle).mpr (le_refl _), fun j hj hs => (hsearch j hj).mp hs, ?_, ?_, ?_⟩
  · simp only [Trie.nodeCount]
    omega
  · simp only [Trie.nodeCount]
    omega
  · intro hW
    have hfull : W.length ≤ TrieNode.matched W t.root := by
      apply (hsearch W.length (le_refl _)).mp
      rw [List.take_length]
      exact hW
    simp only [Trie.nodeCount]
    omega

/-! ## C11: insert and search always return -/

/-- C11: for every state of the Trie and of the HashTable reached by inserting
a list `ws` of words and for all strings `w` and `p` (of any length and with
any characters), the insertions succeed, `Trie::insert(w)` returns a trie,
`Trie::search(p)` returns a boolean and `HashTable::search(p)` returns a
boolean (`HashTable::insert` is a total function of the state).  Moreover, at
every node, the checked access `children.at(ch)` of `Trie::search`, reached
only when `children.count(ch)` is not 0, finds a child; the pointer
`children[ch].get()` read in `Trie::insert` after the guarded assignment of
line 34 is not null; and `compare(0, n, str)` is never out of range. -/
theorem insert_search_total (ws : List CString) (w p : CString) :
    (∃ t, Trie.insertAll Trie.new ws = some t ∧ (∃ t1, t.insert w = some t1) ∧
      ∃ b, t.search p = some b) ∧
    (∃ b, (HashTable.insertAll HashTable.new ws).search p = some b) ∧
    (∀ (node : TrieNode) (ch : Char), node.count ch ≠ 0 →
      ∃ child, node.childAt ch = some child) ∧
    (∀ (node : TrieNode) (ch : Char),
      ∃ child, (if node.count ch = 0 then node.setChild ch TrieNode.make_unique
        else node).childIndex ch = some child) ∧
    (∀ (word : CString) (n : Nat) (str : CString),
      ∃ r, stringCompare word 0 n str = some r) :=
  ⟨⟨Trie.built ws, Trie.insertAll_new ws, ⟨_, Trie.insert_eq _ w⟩, ⟨_, Trie.search_eq _ p⟩⟩,
    HashTable.search_isSome _ p, TrieNode.childAt_of_count, TrieNode.childIndex_after_guard,
    stringCompare_pos_zero⟩

/-! ## C12: the workload of `test` -/

/-- C12: with the clock and the console left out, `test(container, words,
pfxs)` returns normally for a Trie and for a HashTable in any initial state;
the state it leaves is the one obtained by calling `insert` on each element of
`words` in order from the initial state; and the search phase calls `search`
once per entry of `pfxs`, each call made on that state and returning the value
`search` returns there. -/
theorem test_workload (t : Trie) (h : HashTable) (words pfxs : List CString) :
    (∃ t1 bs, test Trie.insert Trie.search t words pfxs = some (t1, bs) ∧
      Trie.insertAll t words = some t1 ∧ bs.length = pfxs.length ∧
      pfxs.map t1.search = bs.map some) ∧
    (∃ bs, test HashTable.insertOk HashTable.search h words pfxs
        = some (HashTable.insertAll h words, bs) ∧
      bs.length = pfxs.length ∧
      pfxs.map (HashTable.insertAll h words).search = bs.map some) := by
  constructor
  · obtain ⟨bs, hbs, hlen, hmap⟩ := searchLoop_total Trie.search
      (Trie.mk (Trie.insertedAll words t.root)) (fun p => ⟨_, Trie.search_eq _ p⟩) pfxs
    refine ⟨_, bs, ?_, Trie.insertAll_eq t words, hlen, hmap⟩
    simp [test, insertLoop_trie, Trie.insertAll_eq, hbs]
  · obtain ⟨bs, hbs, hlen, hmap⟩ := searchLoop_total HashTable.search
      (HashTable.insertAll h words) (HashTable.search_isSome _) pfxs
    refine ⟨bs, ?_, hlen, hmap⟩
    simp [test, insertLoop_hashtable, hbs]

/-! ## C13: the fast path of `HashTable::search` -/

/-- C13: for every stored list of words and every prefix `p`,
`HashTable::search(p)` returns what the linear scan alone returns (the function
without the membership test of line 74), what the scan without the length test
of line 78 returns, and what the function without that length test returns. -/
theorem hashtable_fast_path_redundant (h : HashTable) (p : CString) :
    h.search p = h.searchScanOnly p ∧
    h.search p = HashTable.scanNoSkip p h.words ∧
    h.search p = h.searchNoSkip p := by
  refine ⟨HashTable.search_eq_scan h p, ?_, ?_⟩
  · rw [HashTable.scanNoSkip_eq_scan]
    exact HashTable.search_eq_scan h p
  · simp [HashTable.searchNoSkip, HashTable.search, HashTable.scanNoSkip_eq_scan]

/-! ## C15: `Trie::search` is prefix-closed -/

/-- C15: for every trie (any tree of nodes, reachable or not) and all strings
`P` and `Q` with `Q` a prefix of `P`, if `Trie::search(P)` returns true then
`Trie::search(Q)` returns true, and if `Trie::search(Q)` returns false then
`Trie::search(P)` returns false. -/
theorem trie_search_prefix_closed (t : Trie) (P Q : CString) (hQ : Q <+: P) :
    (t.search P = some true → t.search Q = some true) ∧
    (t.search Q = some false → t.search P = some false) := by
  have key : (TrieNode.descend P t.root).isSome = true →
      (TrieNode.descend Q t.root).isSome = true :=
    TrieNode.descend_isSome_of_prefix Q P t.root hQ
  rw [Trie.search_eq, Trie.search_eq]
  constructor
  · intro hP
    have := key (by simpa using hP)
    simpa using this
  · intro hq
    cases hP : (TrieNode.descend P t.root).isSome with
    | false => rfl
    | true =>
      have := key hP
      rw [this] at hq
      cases hq

/-- C15 at the trie holding `"ab"`, with `P = "ab"` and `Q = "a"`: `search(P)`
returns true there, hence so does `search(Q)`. -/
theorem trie_search_prefix_closed_witness :
    (['a'] : CString) <+: ['a', 'b'] ∧
    (Trie.mk (TrieNode.mk [('a', TrieNode.mk [('b', TrieNode.mk [] true)] false)] false)).search
      ['a', 'b'] = some true ∧
    (Trie.mk (TrieNode.mk [('a', TrieNode.mk [('b', TrieNode.mk [] true)] false)] false)).search
      ['a'] = some true :=
  ⟨by decide, rfl, (trie_search_prefix_closed
    (Trie.mk (TrieNode.mk [('a', TrieNode.mk [('b', TrieNode.mk [] true)] false)] false))
    ['a', 'b'] ['a'] (by decide)).1 rfl⟩

/-! ## C14: the order of insertion -/

/-- C14: for every Trie state `t` reached by inserting a list `ws` of words and
all strings `A` and `B`, inserting `A` then `B` and inserting `B` then `A` both
succeed and give the same tree (the same keys in every child map, the same
subtrees under them, the same terminal flags), and no child map of either tree
binds a key twice; and for every list `vs` of words and every permutation
`vs1` of it, the Trie built from `vs` and the one built from `vs1` return the
same `search(P)`, and so do the two HashTables, for every `P`. -/
theorem insert_order_irrelevant (ws : List CString) (A B : CString)
    (vs vs1 : List CString) (hperm : vs.Perm vs1) (P : CString) :
    (∃ t tab tba, Trie.insertAll Trie.new ws = some t ∧
      Trie.insertAll t [A, B] = some tab ∧ Trie.insertAll t [B, A] = some tba ∧
      TrieNode.SameTree tab.root tba.root ∧
      tab.root.UniqueKeys ∧ tba.root.UniqueKeys) ∧
    (∃ t1 t2, Trie.insertAll Trie.new vs = some t1 ∧
      Trie.insertAll Trie.new vs1 = some t2 ∧ t1.search P = t2.search P) ∧
    (HashTable.insertAll HashTable.new vs).search P
      = (HashTable.insertAll HashTable.new vs1).search P := by
  have hu : (Trie.built ws).root.UniqueKeys :=
    Trie.uniqueKeys_insertedAll ws _ TrieNode.uniqueKeys_make_unique
  refine ⟨⟨Trie.built ws, _, _, Trie.insertAll_new ws, Trie.insertAll_eq _ [A, B],
    Trie.insertAll_eq _ [B, A], Trie.sameTree_swap A B _,
    Trie.uniqueKeys_insertedAll [A, B] _ hu, Trie.uniqueKeys_insertedAll [B, A] _ hu⟩,
    ⟨Trie.built vs, Trie.built vs1, Trie.insertAll_new vs, Trie.insertAll_new vs1,
      Trie.search_built_perm vs vs1 hperm P⟩,
    HashTable.search_insertAll_perm vs vs1 hperm P⟩

/-- C14 at the trie holding `"ab"`, the words `A = "ac"` and `B = "b"`, the
lists `["a", "b"]` and `["b", "a"]` and the prefix `"b"`. -/
theorem insert_order_irrelevant_witness :
    List.Perm ([['a'], ['b']] : List CString) [['b'], ['a']] ∧
    (∃ t tab tba, Trie.insertAll Trie.new [['a', 'b']] = some t ∧
      Trie.insertAll t [['a', 'c'], ['b']] = some tab ∧
      Trie.insertAll t [['b'], ['a', 'c']] = some tba ∧
      TrieNode.SameTree tab.root tba.root ∧
      tab.root.UniqueKeys ∧ tba.root.UniqueKeys) ∧
    (∃ t1 t2, Trie.insertAll Trie.new [['a'], ['b']] = some t1 ∧
      Trie.insertAll Trie.new [['b'], ['a']] = some t2 ∧ t1.search ['b'] = t2.search ['b']) ∧
    (HashTable.insertAll HashTable.new [['a'], ['b']]).search ['b']
      = (HashTable.insertAll HashTable.new [['b'], ['a']]).search ['b'] :=
  ⟨List.Perm.swap _ _ _,
    insert_order_irrelevant [['a', 'b']] ['a', 'c'] ['b'] [['a'], ['b']] [['b'], ['a']]
      (List.Perm.swap _ _ _) ['b']⟩

/-! ## C16: the number of nodes of the Trie -/

/-- C16: after inserting any list `ws` of words into a fresh Trie, the total
number of nodes, the root included, is 1 plus the number of distinct non-empty
strings that are a prefix of at least one inserted word (`nonemptyPrefixes ws`
holds exactly those strings); and inserting again a word of `ws` adds no
node. -/
theorem trie_node_count (ws : List CString) :
    ∃ t, Trie.insertAll Trie.new ws = some t ∧
      t.nodeCount = 1 + (nonemptyPrefixes ws).card ∧
      (∀ s, s ∈ nonemptyPrefixes ws ↔ (s ≠ [] ∧ ∃ w ∈ ws, s <+: w)) ∧
      ∀ w ∈ ws, ∃ t1, t.insert w = some t1 ∧ t1.nodeCount = t.nodeCount := by
  refine ⟨Trie.built ws, Trie.insertAll_new ws, Trie.size_built ws,
    mem_nonemptyPrefixes ws, ?_⟩
  intro w hw
  refine ⟨_, Trie.insert_eq _ w, ?_⟩
  have hpath : (TrieNode.descend (w.take w.length) (Trie.built ws).root).isSome = true := by
    rw [List.take_length]
    exact (Trie.built_path ws w).mpr (Or.inr ⟨w, hw, List.prefix_refl _⟩)
  have hfull := (TrieNode.descend_take_isSome w _ w.length (le_refl _)).mp hpath
  have hsz := Trie.size_inserted w (Trie.built ws).root
  have hle := TrieNode.matched_le_length w (Trie.built ws).root
  simp only [Trie.nodeCount]
  omega
